import Mathlib

/-!
Verification of the enafore dual-protocol timeline engine against its
specification.  The definitions below are a shallow embedding of the
JavaScript sources under `src/routes`:

* `mergeArrays`, `uniqById`, `addTimelineItemSummariesMerge` and
  `addPagedTimelineItemSummariesMerge` embed the timeline merge logic of
  `_actions/timeline.js` (`addTimelineItemSummaries`,
  `addPagedTimelineItemSummaries`) together with the array helpers the
  actions import from `_utils` (those helper files are not part of the
  source snapshot, so they are modelled from the specification, as marked
  on each definition).
* `transformAtprotoPostToEnaforeStatus` embeds the Protocol-B normalizer of
  `_api_atproto/timelines.js` (latest revision, with the synthetic repost
  id), and `getTimelineItems` its batch-mapping caller.
* `setFavoritedFlow` / `setRebloggedFlow` embed the optimistic mutation
  actions of `_actions/favorite.js` and `_actions/reblog.js`.
* `doDeleteStatus` embeds `_actions/deleteStatuses.js`, and
  `deleteAtprotoPost` the database deletion of
  `_database/timelines/getStatusOrNotification.js`.
* `setAtprotoFeedCursor` / `getAtprotoFeedCursor` embed the cursor
  persistence layer of the atproto feeds database module.
-/

namespace Enafore

/-- Projection of a status used for list rendering, per the spec's data
model: an id, a monotonically comparable sort key, and an item kind. -/
structure TimelineItemSummary where
  id : String
  sortKey : Int
  kind : String
  deriving DecidableEq, Repr

/-- Modelled from the spec: `compareTimelineItemSummaries` from
`_utils/statusIdSorting.js` (file not in the snapshot).  Reverse
chronological order: larger sort keys come first, so the comparator
returns a negative number when `a` precedes `b`. -/
def compareTimelineItemSummaries (a b : TimelineItemSummary) : Int :=
  b.sortKey - a.sortKey

/-- Modelled from the spec: `mergeArrays` from `_utils/arrays.js` (file not
in the snapshot).  Merges two comparator-ordered arrays; on a comparator
tie the element of the right (new) array is emitted first, so that after
id de-duplication the fresher datum wins. -/
def mergeArrays : List TimelineItemSummary → List TimelineItemSummary →
    List TimelineItemSummary
  | [], r => r
  | l, [] => l
  | x :: l, y :: r =>
    if compareTimelineItemSummaries x y < 0 then
      x :: mergeArrays l (y :: r)
    else
      y :: mergeArrays (x :: l) r
  termination_by l r => l.length + r.length

/-- Auxiliary to `uniqById`: keeps the first element carrying each id,
threading the set of already-seen ids. -/
def uniqAux (seen : List String) : List TimelineItemSummary →
    List TimelineItemSummary
  | [] => []
  | x :: xs =>
    if x.id ∈ seen then uniqAux seen xs
    else x :: uniqAux (x.id :: seen) xs

/-- Modelled from the spec: `uniqById` from `_utils/lodash-lite.js` (file
not in the snapshot).  Id-based de-duplication keeping the first
occurrence of each id. -/
def uniqById (xs : List TimelineItemSummary) : List TimelineItemSummary :=
  uniqAux [] xs

/-- Weak reverse-chronological comparator as a relation (sort key of the
later list element is at most that of the earlier one). -/
def summaryGE (a b : TimelineItemSummary) : Prop :=
  b.sortKey ≤ a.sortKey

instance : DecidableRel summaryGE := fun a b =>
  inferInstanceAs (Decidable (b.sortKey ≤ a.sortKey))

instance : IsTotal TimelineItemSummary summaryGE :=
  ⟨fun a b => (le_total a.sortKey b.sortKey).symm⟩

instance : IsTrans TimelineItemSummary summaryGE :=
  ⟨fun _ _ _ h1 h2 => le_trans h2 h1⟩

/-- Modelled from the spec: `sortItemSummariesForNotificationBatch` from
`_utils/sortItemSummaries.ts` (file not in the snapshot): a deterministic
stable sort of a notification batch by the timeline comparator. -/
def sortItemSummariesForNotificationBatch
    (xs : List TimelineItemSummary) : List TimelineItemSummary :=
  List.insertionSort summaryGE xs

/-- Total tiebreaking key used by the modelled thread comparator. -/
def threadKey (s : TimelineItemSummary) :
    Lex (Int × Lex (String × String)) :=
  toLex (s.sortKey, toLex (s.id, s.kind))

/-- Modelled from the spec: the thread-order comparator used by
`sortItemSummariesForThread` (file not in the snapshot): a total order,
chronological with id/kind tiebreak. -/
def threadLE (a b : TimelineItemSummary) : Prop :=
  threadKey a ≤ threadKey b

instance : DecidableRel threadLE := fun a b =>
  inferInstanceAs (Decidable (threadKey a ≤ threadKey b))

instance : IsTotal TimelineItemSummary threadLE :=
  ⟨fun a b => le_total (threadKey a) (threadKey b)⟩

instance : IsTrans TimelineItemSummary threadLE :=
  ⟨fun _ _ _ h1 h2 => le_trans h1 h2⟩

theorem threadKey_injective : Function.Injective threadKey := by
  intro a b h
  cases a; cases b
  simp only [threadKey, toLex_inj, Prod.mk.injEq] at h
  obtain ⟨h1, h2, h3⟩ := h
  simp_all

instance : IsAntisymm TimelineItemSummary threadLE :=
  ⟨fun _ _ h1 h2 => threadKey_injective (le_antisymm h1 h2)⟩

/-- Modelled from the spec: `sortItemSummariesForThread` from
`_utils/sortItemSummaries.ts` (file not in the snapshot): re-sorts a
thread timeline by the thread-order comparator.  The focal status id is
kept as a parameter for fidelity with the call sites. -/
def sortItemSummariesForThread (xs : List TimelineItemSummary)
    (_statusId : String) : List TimelineItemSummary :=
  List.insertionSort threadLE xs

/-- The timeline type: first segment of the timeline name, as computed by
`timelineName.split('/')` in `addTimelineItemSummaries`. -/
def timelineType (timelineName : String) : String :=
  (timelineName.data.takeWhile (fun c => c ≠ '/')).asString

/-- The status id segment of a `status/<id>` timeline name: the second
component of `timelineName.split('/')`. -/
def timelineStatusId (timelineName : String) : String :=
  (((timelineName.data.dropWhile (fun c => c ≠ '/')).drop 1).takeWhile
    (fun c => c ≠ '/')).asString

/-- Embeds the merge performed by `addTimelineItemSummaries`
(`_actions/timeline.js` lines 324-345): notification batches are
pre-sorted, old and new summaries are merged by the comparator and
de-duplicated by id, and thread timelines are re-sorted in thread order.
The result is the value written back to `timelineItemSummaries` (the
deep-equality guard only skips the write when the value is unchanged). -/
def addTimelineItemSummariesMerge (timelineName : String)
    (oldSummaries : Option (List TimelineItemSummary))
    (newSummaries : List TimelineItemSummary) : List TimelineItemSummary :=
  let ty := timelineType timelineName
  let newS :=
    if ty = "notifications" then
      sortItemSummariesForNotificationBatch newSummaries
    else newSummaries
  let merged := uniqById (mergeArrays (oldSummaries.getD []) newS)
  if ty = "status" then
    sortItemSummariesForThread merged (timelineStatusId timelineName)
  else merged

/-- Embeds the merge performed by `addPagedTimelineItemSummaries`
(`_actions/timeline.js` lines 203-220): notification batches are
pre-sorted, then old and new summaries are concatenated and de-duplicated
by id without re-sorting; thread timelines are re-sorted in thread
order. -/
def addPagedTimelineItemSummariesMerge (timelineName : String)
    (oldSummaries : Option (List TimelineItemSummary))
    (newSummaries : List TimelineItemSummary) : List TimelineItemSummary :=
  let ty := timelineType timelineName
  let newS :=
    if ty = "notifications" then
      sortItemSummariesForNotificationBatch newSummaries
    else newSummaries
  let merged := uniqById ((oldSummaries.getD []) ++ newS)
  if ty = "status" then
    sortItemSummariesForThread merged (timelineStatusId timelineName)
  else merged

theorem mergeArrays_nil_left (r : List TimelineItemSummary) :
    mergeArrays [] r = r := by
  cases r <;> simp [mergeArrays]

theorem mergeArrays_nil_right (l : List TimelineItemSummary) :
    mergeArrays l [] = l := by
  cases l <;> simp [mergeArrays]

theorem mergeArrays_cons_cons (x y : TimelineItemSummary)
    (l r : List TimelineItemSummary) :
    mergeArrays (x :: l) (y :: r) =
      if compareTimelineItemSummaries x y < 0 then
        x :: mergeArrays l (y :: r)
      else
        y :: mergeArrays (x :: l) r := by
  simp [mergeArrays]

theorem mem_mergeArrays (l r : List TimelineItemSummary)
    (a : TimelineItemSummary) :
    a ∈ mergeArrays l r ↔ a ∈ l ∨ a ∈ r := by
  induction l, r using mergeArrays.induct with
  | case1 r => simp [mergeArrays_nil_left]
  | case2 l => cases l <;> simp [mergeArrays_nil_right]
  | case3 x l y r h ih =>
    rw [mergeArrays_cons_cons, if_pos h]
    simp only [List.mem_cons, ih]
    tauto
  | case4 x l y r h ih =>
    rw [mergeArrays_cons_cons, if_neg h]
    simp only [List.mem_cons, ih]
    tauto

theorem uniqAux_cons_dead {seen : List String} {x : TimelineItemSummary}
    (h : x.id ∈ seen) (xs : List TimelineItemSummary) :
    uniqAux seen (x :: xs) = uniqAux seen xs := by
  simp [uniqAux, h]

theorem uniqAux_cons_alive {seen : List String} {x : TimelineItemSummary}
    (h : x.id ∉ seen) (xs : List TimelineItemSummary) :
    uniqAux seen (x :: xs) = x :: uniqAux (x.id :: seen) xs := by
  simp [uniqAux, h]

theorem uniqAux_sublist (seen : List String)
    (xs : List TimelineItemSummary) : (uniqAux seen xs).Sublist xs := by
  induction xs generalizing seen with
  | nil => simp [uniqAux]
  | cons x xs ih =>
    by_cases h : x.id ∈ seen
    · rw [uniqAux_cons_dead h]
      exact (ih seen).trans (List.sublist_cons_self x xs)
    · rw [uniqAux_cons_alive h]
      exact (ih (x.id :: seen)).cons₂ x

theorem mem_of_mem_uniqAux {seen : List String}
    {xs : List TimelineItemSummary} {a : TimelineItemSummary}
    (h : a ∈ uniqAux seen xs) : a ∈ xs :=
  (uniqAux_sublist seen xs).mem h

theorem uniqAux_id_not_seen {seen : List String}
    {xs : List TimelineItemSummary} {a : TimelineItemSummary}
    (h : a ∈ uniqAux seen xs) : a.id ∉ seen := by
  induction xs generalizing seen with
  | nil => simp [uniqAux] at h
  | cons x xs ih =>
    by_cases hx : x.id ∈ seen
    · rw [uniqAux_cons_dead hx] at h
      exact ih h
    · rw [uniqAux_cons_alive hx] at h
      rcases List.mem_cons.mp h with rfl | h
      · exact hx
      · exact fun hc => ih h (List.mem_cons_of_mem _ hc)

theorem uniqAux_nodupById (seen : List String)
    (xs : List TimelineItemSummary) :
    ((uniqAux seen xs).map TimelineItemSummary.id).Nodup := by
  induction xs generalizing seen with
  | nil => simp [uniqAux]
  | cons x xs ih =>
    by_cases hx : x.id ∈ seen
    · rw [uniqAux_cons_dead hx]; exact ih seen
    · rw [uniqAux_cons_alive hx]
      refine List.nodup_cons.mpr ⟨?_, ih (x.id :: seen)⟩
      intro hc
      rcases List.mem_map.mp hc with ⟨a, ha, hai⟩
      exact uniqAux_id_not_seen ha (by simp [hai])

theorem uniqAux_congr_seen {s₁ s₂ : List String}
    (h : ∀ i, i ∈ s₁ ↔ i ∈ s₂) (xs : List TimelineItemSummary) :
    uniqAux s₁ xs = uniqAux s₂ xs := by
  induction xs generalizing s₁ s₂ with
  | nil => simp [uniqAux]
  | cons x xs ih =>
    by_cases hx : x.id ∈ s₁
    · rw [uniqAux_cons_dead hx, uniqAux_cons_dead ((h x.id).mp hx)]
      exact ih h
    · rw [uniqAux_cons_alive hx,
        uniqAux_cons_alive (fun hc => hx ((h x.id).mpr hc))]
      refine congrArg _ (ih ?_)
      intro i
      simp only [List.mem_cons]
      exact or_congr Iff.rfl (h i)

theorem uniqAux_eq_self {seen : List String}
    {xs : List TimelineItemSummary}
    (hn : (xs.map TimelineItemSummary.id).Nodup)
    (ha : ∀ x ∈ xs, x.id ∉ seen) : uniqAux seen xs = xs := by
  induction xs generalizing seen with
  | nil => simp [uniqAux]
  | cons x xs ih =>
    rw [uniqAux_cons_alive (ha x (List.mem_cons_self x xs))]
    refine congrArg _ (ih (List.nodup_cons.mp hn).2 ?_)
    intro a hax
    simp only [List.mem_cons]
    rintro (hc | hc)
    · exact (List.nodup_cons.mp hn).1 (hc ▸ List.mem_map_of_mem _ hax)
    · exact ha a (List.mem_cons_of_mem _ hax) hc

theorem uniqAux_idem (seen : List String)
    (xs : List TimelineItemSummary) :
    uniqAux seen (uniqAux seen xs) = uniqAux seen xs :=
  uniqAux_eq_self (uniqAux_nodupById seen xs)
    (fun _ hx => uniqAux_id_not_seen hx)

theorem uniqAux_append_dead {seen : List String}
    {d : List TimelineItemSummary} (hd : ∀ w ∈ d, w.id ∈ seen)
    (xs : List TimelineItemSummary) :
    uniqAux seen (d ++ xs) = uniqAux seen xs := by
  induction d with
  | nil => rfl
  | cons w d ih =>
    rw [List.cons_append,
      uniqAux_cons_dead (hd w (List.mem_cons_self w d))]
    exact ih (fun v hv => hd v (List.mem_cons_of_mem _ hv))

theorem uniqAux_append_covered {seen : List String}
    {xs b : List TimelineItemSummary}
    (hb : ∀ y ∈ b, y.id ∈ seen ∨ ∃ x ∈ xs, x.id = y.id) :
    uniqAux seen (xs ++ b) = uniqAux seen xs := by
  induction xs generalizing seen with
  | nil =>
    simp only [List.nil_append]
    have : ∀ y ∈ b, y.id ∈ seen := by
      intro y hy
      rcases hb y hy with h | ⟨x, hx, _⟩
      · exact h
      · simp at hx
    calc uniqAux seen b = uniqAux seen (b ++ []) := by simp
      _ = uniqAux seen [] := uniqAux_append_dead this []
      _ = [] := rfl
  | cons x xs ih =>
    by_cases hx : x.id ∈ seen
    · rw [List.cons_append, uniqAux_cons_dead hx, uniqAux_cons_dead hx]
      refine ih ?_
      intro y hy
      rcases hb y hy with h | ⟨a, ha, hai⟩
      · exact Or.inl h
      · rcases List.mem_cons.mp ha with rfl | ha
        · exact Or.inl (hai ▸ hx)
        · exact Or.inr ⟨a, ha, hai⟩
    · rw [List.cons_append, uniqAux_cons_alive hx, uniqAux_cons_alive hx]
      refine congrArg _ (ih ?_)
      intro y hy
      rcases hb y hy with h | ⟨a, ha, hai⟩
      · exact Or.inl (List.mem_cons_of_mem _ h)
      · rcases List.mem_cons.mp ha with rfl | ha
        · exact Or.inl (by simp [hai])
        · exact Or.inr ⟨a, ha, hai⟩

theorem uniqAux_uniqAux_append (seen : List String)
    (xs b : List TimelineItemSummary) :
    uniqAux seen (uniqAux seen xs ++ b) = uniqAux seen (xs ++ b) := by
  induction xs generalizing seen with
  | nil => rfl
  | cons x xs ih =>
    by_cases hx : x.id ∈ seen
    · rw [uniqAux_cons_dead hx, List.cons_append, uniqAux_cons_dead hx]
      exact ih seen
    · rw [uniqAux_cons_alive hx, List.cons_append, List.cons_append,
        uniqAux_cons_alive hx, uniqAux_cons_alive hx]
      exact congrArg _ (ih (x.id :: seen))

theorem compare_lt_iff (x y : TimelineItemSummary) :
    compareTimelineItemSummaries x y < 0 ↔ y.sortKey < x.sortKey := by
  simp only [compareTimelineItemSummaries]
  omega

theorem mergeArrays_emit_right {z : TimelineItemSummary}
    {l b' : List TimelineItemSummary}
    (h : ∀ x ∈ l, ¬ z.sortKey < x.sortKey) :
    mergeArrays l (z :: b') = z :: mergeArrays l b' := by
  cases l with
  | nil => rw [mergeArrays_nil_left, mergeArrays_nil_left]
  | cons x l' =>
    rw [mergeArrays_cons_cons, if_neg]
    rw [compare_lt_iff]
    exact h x (List.mem_cons_self x l')

theorem sorted_head_le {x : TimelineItemSummary}
    {o : List TimelineItemSummary} (ho : List.Sorted summaryGE (x :: o)) :
    ∀ v ∈ x :: o, v.sortKey ≤ x.sortKey := by
  intro v hv
  rcases List.mem_cons.mp hv with rfl | hv
  · exact le_refl _
  · exact List.rel_of_sorted_cons ho v hv

/-- Key lemma for merge idempotence: re-merging a batch `b` into the
de-duplicated merge of `o` and `b` (possibly behind a prefix `d` of
already-seen entries dominating everything else) does not change the
result. -/
theorem uniq_merge_aux (S : List String)
    (d o b : List TimelineItemSummary)
    (hd : ∀ w ∈ d, w.id ∈ S)
    (hdo : ∀ w ∈ d, ∀ v ∈ o, v.sortKey ≤ w.sortKey)
    (hdb : ∀ w ∈ d, ∀ v ∈ b, v.sortKey ≤ w.sortKey)
    (ho : List.Sorted summaryGE o) (hb : List.Sorted summaryGE b) :
    uniqAux S (mergeArrays (d ++ uniqAux S (mergeArrays o b)) b) =
      uniqAux S (mergeArrays o b) := by
  cases b with
  | nil =>
    rw [mergeArrays_nil_right, mergeArrays_nil_right,
      uniqAux_append_dead hd, uniqAux_idem]
  | cons z b' =>
    cases d with
    | cons w d' =>
      have hwz : z.sortKey ≤ w.sortKey :=
        hdb w (List.mem_cons_self w d') z (List.mem_cons_self z b')
      by_cases hbef : z.sortKey < w.sortKey
      · -- the dead head `w` strictly dominates `z`: it is emitted first
        -- and dropped.
        rw [List.cons_append, mergeArrays_cons_cons, if_pos
            ((compare_lt_iff w z).mpr hbef),
          uniqAux_cons_dead (hd w (List.mem_cons_self w d'))]
        exact uniq_merge_aux S d' o (z :: b')
          (fun v hv => hd v (List.mem_cons_of_mem _ hv))
          (fun v hv => hdo v (List.mem_cons_of_mem _ hv))
          (fun v hv => hdb v (List.mem_cons_of_mem _ hv)) ho hb
      · have hz_eq : z.sortKey = w.sortKey := le_antisymm hwz (not_lt.mp hbef)
        have h_merge_o : mergeArrays o (z :: b') = z :: mergeArrays o b' := by
          refine mergeArrays_emit_right ?_
          intro v hv
          exact not_lt.mpr (hz_eq ▸ hdo w (List.mem_cons_self w d') v hv)
        have h_emit : ∀ t, mergeArrays (w :: t) (z :: b') =
            z :: mergeArrays (w :: t) b' := by
          intro t
          rw [mergeArrays_cons_cons, if_neg]
          rw [compare_lt_iff]
          exact hbef
        by_cases hzS : z.id ∈ S
        · rw [h_merge_o, uniqAux_cons_dead hzS, List.cons_append, h_emit,
            uniqAux_cons_dead hzS, ← List.cons_append]
          exact uniq_merge_aux S (w :: d') o b' hd hdo
            (fun v hv u hu => hdb v hv u (List.mem_cons_of_mem _ hu)) ho
            hb.of_cons
        · rw [h_merge_o, uniqAux_cons_alive hzS, List.cons_append, h_emit,
            uniqAux_cons_alive hzS]
          refine congrArg _ ?_
          have hassoc : w :: (d' ++ (z :: uniqAux (z.id :: S)
              (mergeArrays o b'))) = ((w :: d') ++ [z]) ++ uniqAux (z.id :: S)
              (mergeArrays o b') := by
            simp
          rw [hassoc]
          exact uniq_merge_aux (z.id :: S) ((w :: d') ++ [z]) o b'
            (by
              intro v hv
              rcases List.mem_append.mp hv with hv | hv
              · exact List.mem_cons_of_mem _ (hd v hv)
              · simp only [List.mem_singleton] at hv
                subst hv
                exact List.mem_cons_self _ _)
            (by
              intro v hv u hu
              rcases List.mem_append.mp hv with hv | hv
              · exact hdo v hv u hu
              · simp only [List.mem_singleton] at hv
                subst hv
                exact hz_eq ▸ hdo w (List.mem_cons_self w d') u hu)
            (by
              intro v hv u hu
              rcases List.mem_append.mp hv with hv | hv
              · exact hdb v hv u (List.mem_cons_of_mem _ hu)
              · simp only [List.mem_singleton] at hv
                subst hv
                exact List.rel_of_sorted_cons hb u hu)
            ho hb.of_cons
    | nil =>
      cases o with
      | cons x o' =>
        by_cases hxz : z.sortKey < x.sortKey
        · -- old head strictly precedes the incoming head: it is emitted
          -- first on both sides.
          have h_merge_o : mergeArrays (x :: o') (z :: b') =
              x :: mergeArrays o' (z :: b') := by
            rw [mergeArrays_cons_cons, if_pos ((compare_lt_iff x z).mpr hxz)]
          by_cases hxS : x.id ∈ S
          · rw [h_merge_o, uniqAux_cons_dead hxS, List.nil_append]
            have := uniq_merge_aux S [] o' (z :: b') (by simp) (by simp)
              (by simp) ho.of_cons hb
            rw [List.nil_append] at this
            exact this
          · rw [h_merge_o, uniqAux_cons_alive hxS, List.nil_append,
              mergeArrays_cons_cons, if_pos ((compare_lt_iff x z).mpr hxz),
              uniqAux_cons_alive hxS]
            refine congrArg _ ?_
            have := uniq_merge_aux (x.id :: S) [] o' (z :: b') (by simp)
              (by simp) (by simp) ho.of_cons hb
            rw [List.nil_append] at this
            exact this
        · have h_merge_o : mergeArrays (x :: o') (z :: b') =
              z :: mergeArrays (x :: o') b' := by
            rw [mergeArrays_cons_cons, if_neg]
            rw [compare_lt_iff]
            exact hxz
          have h_le_z : ∀ v ∈ mergeArrays (x :: o') b', v.sortKey ≤
              z.sortKey := by
            intro v hv
            rcases (mem_mergeArrays _ _ v).mp hv with hv | hv
            · exact le_trans (sorted_head_le ho v hv) (not_lt.mp hxz)
            · exact List.rel_of_sorted_cons hb v hv
          by_cases hzS : z.id ∈ S
          · rw [h_merge_o, uniqAux_cons_dead hzS, List.nil_append,
              mergeArrays_emit_right (fun v hv => not_lt.mpr
                (h_le_z v (mem_of_mem_uniqAux hv))),
              uniqAux_cons_dead hzS]
            have := uniq_merge_aux S [] (x :: o') b' (by simp) (by simp)
              (by simp) ho hb.of_cons
            rw [List.nil_append] at this
            exact this
          · rw [h_merge_o, uniqAux_cons_alive hzS, List.nil_append,
              mergeArrays_cons_cons, if_neg (by
                rw [compare_lt_iff]
                exact lt_irrefl _),
              uniqAux_cons_alive hzS]
            refine congrArg _ ?_
            have := uniq_merge_aux (z.id :: S) [z] (x :: o') b'
              (by simp)
              (by
                intro v hv u hu
                simp only [List.mem_singleton] at hv
                subst hv
                exact le_trans (sorted_head_le ho u hu) (not_lt.mp hxz))
              (by
                intro v hv u hu
                simp only [List.mem_singleton] at hv
                subst hv
                exact List.rel_of_sorted_cons hb u hu)
              ho hb.of_cons
            rw [List.singleton_append] at this
            exact this
      | nil =>
        rw [mergeArrays_nil_left, List.nil_append]
        by_cases hzS : z.id ∈ S
        · rw [uniqAux_cons_dead hzS,
            mergeArrays_emit_right (fun v hv => not_lt.mpr
              (List.rel_of_sorted_cons hb v (mem_of_mem_uniqAux hv))),
            uniqAux_cons_dead hzS]
          have := uniq_merge_aux S [] [] b' (by simp) (by simp) (by simp)
            List.sorted_nil hb.of_cons
          simpa [mergeArrays_nil_left] using this
        · rw [uniqAux_cons_alive hzS, mergeArrays_cons_cons, if_neg (by
            rw [compare_lt_iff]
            exact lt_irrefl _),
            uniqAux_cons_alive hzS]
          refine congrArg _ ?_
          have := uniq_merge_aux (z.id :: S) [z] [] b' (by simp) (by simp)
            (by
              intro v hv u hu
              simp only [List.mem_singleton] at hv
              subst hv
              exact List.rel_of_sorted_cons hb u hu)
            List.sorted_nil hb.of_cons
          simpa [mergeArrays_nil_left] using this
  termination_by (b.length, o.length, d.length)
  decreasing_by
    all_goals simp_wf
    all_goals subst_vars
    all_goals simp only [List.length_cons, List.length_append,
      List.length_nil]
    all_goals first
      | exact Prod.Lex.left _ _ (by omega)
      | exact Prod.Lex.right _ (Prod.Lex.left _ _ (by omega))
      | exact Prod.Lex.right _ (Prod.Lex.right _ (by omega))


/-- A summary list has no two entries with the same id. -/
def NodupById (xs : List TimelineItemSummary) : Prop :=
  (xs.map TimelineItemSummary.id).Nodup

/-- A list is in timeline order when sorted by the weak
reverse-chronological comparator. -/
def SortedByCmp (xs : List TimelineItemSummary) : Prop :=
  List.Sorted summaryGE xs

/-- Sort keys are a function of the id within the given pool of
summaries (two summaries of the same underlying item carry the same
creation-time-derived sort key). -/
def Coherent (xs : List TimelineItemSummary) : Prop :=
  ∀ x ∈ xs, ∀ y ∈ xs, x.id = y.id → x.sortKey = y.sortKey

instance (xs : List TimelineItemSummary) : Decidable (SortedByCmp xs) :=
  inferInstanceAs (Decidable (List.Pairwise summaryGE xs))

instance (xs : List TimelineItemSummary) : Decidable (Coherent xs) :=
  inferInstanceAs (Decidable
    (∀ x ∈ xs, ∀ y ∈ xs, x.id = y.id → x.sortKey = y.sortKey))

/-- The first summary with the given id, mirroring a by-id lookup into a
summary list. -/
def findId (xs : List TimelineItemSummary) (i : String) :
    Option TimelineItemSummary :=
  xs.find? (fun x => x.id == i)

theorem sorted_mergeArrays {o b : List TimelineItemSummary}
    (ho : List.Sorted summaryGE o) (hb : List.Sorted summaryGE b) :
    List.Sorted summaryGE (mergeArrays o b) := by
  induction o, b using mergeArrays.induct with
  | case1 r => rw [mergeArrays_nil_left]; exact hb
  | case2 l => rw [mergeArrays_nil_right]; exact ho
  | case3 x l y r h ih =>
    rw [mergeArrays_cons_cons, if_pos h]
    rw [compare_lt_iff] at h
    refine List.sorted_cons.mpr ⟨?_, ih ho.of_cons hb⟩
    intro v hv
    rcases (mem_mergeArrays _ _ v).mp hv with hv | hv
    · exact List.rel_of_sorted_cons ho v hv
    · exact le_trans (sorted_head_le hb v hv) (le_of_lt h)
  | case4 x l y r h ih =>
    rw [mergeArrays_cons_cons, if_neg h]
    rw [compare_lt_iff, not_lt] at h
    refine List.sorted_cons.mpr ⟨?_, ih ho hb.of_cons⟩
    intro v hv
    rcases (mem_mergeArrays _ _ v).mp hv with hv | hv
    · exact le_trans (sorted_head_le ho v hv) h
    · exact List.rel_of_sorted_cons hb v hv

theorem sorted_uniqAux {seen : List String}
    {xs : List TimelineItemSummary} (h : List.Sorted summaryGE xs) :
    List.Sorted summaryGE (uniqAux seen xs) :=
  List.Pairwise.sublist (uniqAux_sublist seen xs) h

theorem mem_of_findId {xs : List TimelineItemSummary} {i : String}
    {y : TimelineItemSummary} (h : findId xs i = some y) :
    y ∈ xs ∧ y.id = i := by
  refine ⟨List.mem_of_find?_eq_some h, ?_⟩
  have := List.find?_some h
  simpa using this

theorem findId_eq_none {xs : List TimelineItemSummary} {i : String}
    (h : ∀ y ∈ xs, y.id ≠ i) : findId xs i = none := by
  refine List.find?_eq_none.mpr ?_
  intro y hy
  simpa using h y hy

theorem findId_cons_self {x : TimelineItemSummary}
    {xs : List TimelineItemSummary} {i : String} (h : x.id = i) :
    findId (x :: xs) i = some x := by
  simp [findId, List.find?, h]

theorem findId_cons_ne {x : TimelineItemSummary}
    {xs : List TimelineItemSummary} {i : String} (h : x.id ≠ i) :
    findId (x :: xs) i = findId xs i := by
  simp only [findId, List.find?]
  rw [show (x.id == i) = false from beq_false_of_ne h]

theorem findId_eq_some_of_mem {xs : List TimelineItemSummary}
    {x : TimelineItemSummary} (hn : NodupById xs) (hx : x ∈ xs) :
    findId xs (x.id) = some x := by
  induction xs with
  | nil => simp at hx
  | cons a xs ih =>
    rcases List.mem_cons.mp hx with rfl | hx
    · exact findId_cons_self rfl
    · have ha : a.id ≠ x.id := by
        intro hc
        exact (List.nodup_cons.mp hn).1
          (hc ▸ List.mem_map_of_mem TimelineItemSummary.id hx)
      rw [findId_cons_ne ha]
      exact ih (List.nodup_cons.mp hn).2 hx

theorem findId_uniqAux {seen : List String}
    {xs : List TimelineItemSummary} {i : String} (h : i ∉ seen) :
    findId (uniqAux seen xs) i = findId xs i := by
  induction xs generalizing seen with
  | nil => rfl
  | cons x xs ih =>
    by_cases hx : x.id ∈ seen
    · have hxi : x.id ≠ i := fun hc => h (hc ▸ hx)
      rw [uniqAux_cons_dead hx, findId_cons_ne hxi]
      exact ih h
    · rw [uniqAux_cons_alive hx]
      by_cases hxi : x.id = i
      · rw [findId_cons_self hxi, findId_cons_self hxi]
      · rw [findId_cons_ne hxi, findId_cons_ne hxi]
        refine ih ?_
        simp only [List.mem_cons]
        rintro (hc | hc)
        · exact hxi hc.symm
        · exact h hc

/-- When the incoming batch is comparator-sorted and sort keys are
coherent, the batch's entry for an id precedes any old entry of the same
id in the merge, so after de-duplication the fresh entry wins. -/
theorem findId_mergeArrays_of_batch {o b : List TimelineItemSummary}
    (hb : List.Sorted summaryGE b)
    (coh : ∀ x ∈ o, ∀ y ∈ b, x.id = y.id → x.sortKey = y.sortKey)
    {i : String} {y : TimelineItemSummary} (hy : findId b i = some y) :
    findId (mergeArrays o b) i = some y := by
  induction o, b using mergeArrays.induct with
  | case1 r => rw [mergeArrays_nil_left]; exact hy
  | case2 l =>
    cases l with
    | nil => simp [findId] at hy
    | cons a l => simp [findId] at hy
  | case3 x l y' r h ih =>
    rw [mergeArrays_cons_cons, if_pos h]
    rw [compare_lt_iff] at h
    have hxi : x.id ≠ i := by
      intro hc
      obtain ⟨hmem, hid⟩ := mem_of_findId hy
      have hk := coh x (List.mem_cons_self x l) y hmem (by rw [hc, hid])
      have := sorted_head_le hb y hmem
      omega
    rw [findId_cons_ne hxi]
    exact ih hb (fun a ha u hu => coh a (List.mem_cons_of_mem _ ha) u hu) hy
  | case4 x l z r h ih =>
    rw [mergeArrays_cons_cons, if_neg h]
    by_cases hzi : z.id = i
    · rw [findId_cons_self hzi]
      rw [findId_cons_self hzi] at hy
      exact hy
    · rw [findId_cons_ne hzi]
      rw [findId_cons_ne hzi] at hy
      exact ih hb.of_cons
        (fun a ha u hu => coh a ha u (List.mem_cons_of_mem _ hu)) hy

theorem findId_mergeArrays_of_old {o b : List TimelineItemSummary}
    {i : String} (hnb : ∀ y ∈ b, y.id ≠ i) :
    findId (mergeArrays o b) i = findId o i := by
  induction o, b using mergeArrays.induct with
  | case1 r =>
    rw [mergeArrays_nil_left, findId_eq_none hnb]
    rfl
  | case2 l => rw [mergeArrays_nil_right]
  | case3 x l y r h ih =>
    rw [mergeArrays_cons_cons, if_pos h]
    by_cases hxi : x.id = i
    · rw [findId_cons_self hxi, findId_cons_self hxi]
    · rw [findId_cons_ne hxi, findId_cons_ne hxi]
      exact ih hnb
  | case4 x l z r h ih =>
    rw [mergeArrays_cons_cons, if_neg h]
    rw [findId_cons_ne (hnb z (List.mem_cons_self z r))]
    exact ih (fun u hu => hnb u (List.mem_cons_of_mem _ hu))

theorem id_covered_uniqAux (seen : List String)
    (xs : List TimelineItemSummary) {y : TimelineItemSummary}
    (hy : y ∈ xs) :
    y.id ∈ seen ∨ ∃ x ∈ uniqAux seen xs, x.id = y.id := by
  induction xs generalizing seen with
  | nil => simp at hy
  | cons a xs ih =>
    by_cases ha : a.id ∈ seen
    · rw [uniqAux_cons_dead ha]
      rcases List.mem_cons.mp hy with rfl | hy
      · exact Or.inl ha
      · exact ih seen hy
    · rw [uniqAux_cons_alive ha]
      rcases List.mem_cons.mp hy with rfl | hy
      · exact Or.inr ⟨y, List.mem_cons_self _ _, rfl⟩
      · rcases ih (a.id :: seen) hy with h | ⟨x, hx, hxy⟩
        · rcases List.mem_cons.mp h with h | h
          · exact Or.inr ⟨a, List.mem_cons_self _ _, h.symm⟩
          · exact Or.inl h
        · exact Or.inr ⟨x, List.mem_cons_of_mem _ hx, hxy⟩

theorem nodupById_perm {l l' : List TimelineItemSummary} (h : l.Perm l')
    (hn : NodupById l) : NodupById l' :=
  ((h.map TimelineItemSummary.id).nodup_iff).mp hn

theorem nodup_of_nodupById {l : List TimelineItemSummary}
    (h : NodupById l) : l.Nodup :=
  List.Nodup.of_map TimelineItemSummary.id h

theorem nodupById_uniqById (xs : List TimelineItemSummary) :
    NodupById (uniqById xs) :=
  uniqAux_nodupById [] xs

theorem uniqById_eq_self {xs : List TimelineItemSummary}
    (h : NodupById xs) : uniqById xs = xs :=
  uniqAux_eq_self h (by simp)

/-- Idempotence of the plain (non-thread) non-paged merge. -/
theorem generic_nonpaged_idem {o b : List TimelineItemSummary}
    (ho : SortedByCmp o) (hb : SortedByCmp b) :
    uniqById (mergeArrays (uniqById (mergeArrays o b)) b) =
      uniqById (mergeArrays o b) := by
  have := uniq_merge_aux [] [] o b (by simp) (by simp) (by simp) ho hb
  simpa using this

/-- Idempotence of the plain (non-thread) paged merge. -/
theorem generic_paged_idem (o b : List TimelineItemSummary) :
    uniqById (uniqById (o ++ b) ++ b) = uniqById (o ++ b) := by
  simp only [uniqById]
  rw [uniqAux_uniqAux_append]
  refine uniqAux_append_covered ?_
  intro y hy
  exact Or.inr ⟨y, List.mem_append_right o hy, rfl⟩

/-- Idempotence of the thread-sorted paged merge. -/
theorem thread_paged_idem (o b : List TimelineItemSummary) (sid : String) :
    sortItemSummariesForThread
      (uniqById (sortItemSummariesForThread (uniqById (o ++ b)) sid ++ b))
      sid = sortItemSummariesForThread (uniqById (o ++ b)) sid := by
  set m := uniqById (o ++ b) with hm
  set r := sortItemSummariesForThread m sid with hr
  have perm_rm : r.Perm m := List.perm_insertionSort threadLE m
  have hr_nodup : NodupById r :=
    nodupById_perm perm_rm.symm (nodupById_uniqById _)
  have hcov : uniqById (r ++ b) = uniqById r := by
    refine uniqAux_append_covered ?_
    intro y hy
    rcases id_covered_uniqAux [] (o ++ b) (List.mem_append_right o hy)
      with h | ⟨x, hx, hxy⟩
    · simp at h
    · exact Or.inr ⟨x, perm_rm.symm.subset hx, hxy⟩
  rw [hcov, uniqById_eq_self hr_nodup, hr, sortItemSummariesForThread,
    sortItemSummariesForThread]
  exact List.Sorted.insertionSort_eq (List.sorted_insertionSort threadLE m)

/-- Idempotence of the thread-sorted non-paged merge: re-merging the same
batch into the thread-sorted result is a permutation fixed by the
canonical thread sort. -/
theorem thread_nonpaged_idem {o b : List TimelineItemSummary}
    (sid : String) (hb : SortedByCmp b) (coh : Coherent (o ++ b)) :
    sortItemSummariesForThread
      (uniqById (mergeArrays
        (sortItemSummariesForThread (uniqById (mergeArrays o b)) sid) b))
      sid = sortItemSummariesForThread (uniqById (mergeArrays o b)) sid := by
  set m := uniqById (mergeArrays o b) with hm
  set r := sortItemSummariesForThread m sid with hr
  set q := uniqById (mergeArrays r b) with hq
  have perm_rm : r.Perm m := List.perm_insertionSort threadLE m
  have hm_nodup : NodupById m := nodupById_uniqById _
  have hr_nodup : NodupById r := nodupById_perm perm_rm.symm hm_nodup
  have hq_nodup : NodupById q := nodupById_uniqById _
  have memr_sub : ∀ x ∈ r, x ∈ o ++ b := by
    intro x hx
    have : x ∈ mergeArrays o b :=
      mem_of_mem_uniqAux (hm ▸ perm_rm.subset hx)
    rcases (mem_mergeArrays o b x).mp this with h | h
    · exact List.mem_append_left b h
    · exact List.mem_append_right o h
  have coh_ob : ∀ x ∈ o, ∀ y ∈ b, x.id = y.id → x.sortKey = y.sortKey :=
    fun x hx y hy =>
      coh x (List.mem_append_left b hx) y (List.mem_append_right o hy)
  have coh_rb : ∀ x ∈ r, ∀ y ∈ b, x.id = y.id → x.sortKey = y.sortKey :=
    fun x hx y hy =>
      coh x (memr_sub x hx) y (List.mem_append_right o hy)
  have key1 : ∀ i y, findId b i = some y → findId m i = some y := by
    intro i y hy
    rw [hm, uniqById, findId_uniqAux (by simp)]
    exact findId_mergeArrays_of_batch hb coh_ob hy
  have key2 : ∀ i y, findId b i = some y → findId r i = some y := by
    intro i y hy
    obtain ⟨hmem, hid⟩ := mem_of_findId (key1 i y hy)
    have : y ∈ r := perm_rm.symm.subset hmem
    rw [← hid]
    exact findId_eq_some_of_mem hr_nodup this
  have key3 : ∀ i y, findId b i = some y → findId q i = some y := by
    intro i y hy
    rw [hq, uniqById, findId_uniqAux (by simp)]
    exact findId_mergeArrays_of_batch hb coh_rb hy
  have key4 : ∀ i, findId b i = none → findId q i = findId r i := by
    intro i hi
    rw [hq, uniqById, findId_uniqAux (by simp)]
    refine findId_mergeArrays_of_old ?_
    intro y hy hc
    have := List.find?_eq_none.mp hi y hy
    simp [hc] at this
  have mem_ext : ∀ x, x ∈ q ↔ x ∈ r := by
    intro x
    constructor
    · intro hx
      have hfq : findId q x.id = some x := findId_eq_some_of_mem hq_nodup hx
      cases hfb : findId b x.id with
      | some y =>
        have := key3 x.id y hfb
        rw [hfq] at this
        obtain rfl : x = y := by injection this
        exact (mem_of_findId (key2 x.id x hfb)).1
      | none =>
        have := key4 x.id hfb
        rw [hfq] at this
        exact (mem_of_findId this.symm).1
    · intro hx
      have hfr : findId r x.id = some x := findId_eq_some_of_mem hr_nodup hx
      cases hfb : findId b x.id with
      | some y =>
        have h2 := key2 x.id y hfb
        rw [hfr] at h2
        obtain rfl : x = y := by injection h2
        exact (mem_of_findId (key3 x.id x hfb)).1
      | none =>
        have := key4 x.id hfb
        rw [hfr] at this
        exact (mem_of_findId this).1
  have perm_qr : q.Perm r :=
    (List.perm_ext_iff_of_nodup (nodup_of_nodupById hq_nodup)
      (nodup_of_nodupById hr_nodup)).mpr mem_ext
  have hTq : sortItemSummariesForThread q sid =
      sortItemSummariesForThread r sid := by
    exact List.eq_of_perm_of_sorted
      (((List.perm_insertionSort threadLE q).trans perm_qr).trans
        (List.perm_insertionSort threadLE r).symm)
      (List.sorted_insertionSort threadLE q)
      (List.sorted_insertionSort threadLE r)
  rw [hTq, hr, sortItemSummariesForThread, sortItemSummariesForThread]
  exact List.Sorted.insertionSort_eq (List.sorted_insertionSort threadLE m)

/-- C1: for every timeline, after any merge (background-refresh via
`addTimelineItemSummaries` or load-older via
`addPagedTimelineItemSummaries`), the resulting `timelineItemSummaries`
list contains no two entries with the same id, whatever duplicate ids
appear within or across the old list and the incoming batch. -/
theorem merge_no_duplicate_ids (timelineName : String)
    (oldSummaries : Option (List TimelineItemSummary))
    (newSummaries : List TimelineItemSummary) :
    NodupById (addTimelineItemSummariesMerge timelineName oldSummaries
      newSummaries) ∧
    NodupById (addPagedTimelineItemSummariesMerge timelineName oldSummaries
      newSummaries) := by
  constructor <;>
  · simp only [addTimelineItemSummariesMerge,
      addPagedTimelineItemSummariesMerge]
    split
    · exact nodupById_perm
        (List.perm_insertionSort threadLE _).symm (nodupById_uniqById _)
    · exact nodupById_uniqById _

/-- C2: in a non-paged (background refresh) merge of an ordinary feed
timeline, the merged list is in comparator order (not concatenation
order) and, on a shared id, the entry of the incoming batch is the one
retained; a paged (load older) merge instead concatenates old then new
and de-duplicates by id without re-sorting, keeping a subsequence of the
concatenation that still covers every id. -/
theorem merge_fresh_wins_and_paged_concat (timelineName : String)
    (oldSummaries : Option (List TimelineItemSummary))
    (newSummaries : List TimelineItemSummary)
    (hty1 : timelineType timelineName ≠ "notifications")
    (hty2 : timelineType timelineName ≠ "status")
    (ho : SortedByCmp (oldSummaries.getD []))
    (hb : SortedByCmp newSummaries)
    (coh : Coherent (oldSummaries.getD [] ++ newSummaries)) :
    (SortedByCmp (addTimelineItemSummariesMerge timelineName oldSummaries
        newSummaries) ∧
      ∀ i y, findId newSummaries i = some y →
        findId (addTimelineItemSummariesMerge timelineName oldSummaries
          newSummaries) i = some y) ∧
    ((addPagedTimelineItemSummariesMerge timelineName oldSummaries
        newSummaries).Sublist (oldSummaries.getD [] ++ newSummaries) ∧
      NodupById (addPagedTimelineItemSummariesMerge timelineName
        oldSummaries newSummaries) ∧
      ∀ x ∈ oldSummaries.getD [] ++ newSummaries,
        ∃ z ∈ addPagedTimelineItemSummariesMerge timelineName oldSummaries
          newSummaries, z.id = x.id) := by
  have coh_ob : ∀ x ∈ oldSummaries.getD [], ∀ y ∈ newSummaries,
      x.id = y.id → x.sortKey = y.sortKey := fun x hx y hy =>
    coh x (List.mem_append_left _ hx) y (List.mem_append_right _ hy)
  refine ⟨⟨?_, ?_⟩, ?_, ?_, ?_⟩
  · simp only [addTimelineItemSummariesMerge, if_neg hty1, if_neg hty2]
    exact sorted_uniqAux (sorted_mergeArrays ho hb)
  · intro i y hy
    simp only [addTimelineItemSummariesMerge, if_neg hty1, if_neg hty2,
      uniqById]
    rw [findId_uniqAux (by simp)]
    exact findId_mergeArrays_of_batch hb coh_ob hy
  · simp only [addPagedTimelineItemSummariesMerge, if_neg hty1,
      if_neg hty2]
    exact uniqAux_sublist [] _
  · simp only [addPagedTimelineItemSummariesMerge, if_neg hty1,
      if_neg hty2]
    exact nodupById_uniqById _
  · intro x hx
    simp only [addPagedTimelineItemSummariesMerge, if_neg hty1,
      if_neg hty2]
    rcases id_covered_uniqAux [] _ hx with h | ⟨z, hz, hzx⟩
    · simp at h
    · exact ⟨z, hz, hzx⟩

/-- C3: merging the same batch twice in succession yields exactly the
same `timelineItemSummaries` list as merging it once, both for the
background-refresh merge (given comparator-sorted inputs with coherent
sort keys) and, unconditionally, for the paged merge. -/
theorem merge_same_batch_idempotent :
    (∀ (timelineName : String)
      (oldSummaries : Option (List TimelineItemSummary))
      (newSummaries : List TimelineItemSummary),
      SortedByCmp (oldSummaries.getD []) → SortedByCmp newSummaries →
      Coherent (oldSummaries.getD [] ++ newSummaries) →
      addTimelineItemSummariesMerge timelineName
        (some (addTimelineItemSummariesMerge timelineName oldSummaries
          newSummaries)) newSummaries =
      addTimelineItemSummariesMerge timelineName oldSummaries
        newSummaries) ∧
    (∀ (timelineName : String)
      (oldSummaries : Option (List TimelineItemSummary))
      (newSummaries : List TimelineItemSummary),
      addPagedTimelineItemSummariesMerge timelineName
        (some (addPagedTimelineItemSummariesMerge timelineName oldSummaries
          newSummaries)) newSummaries =
      addPagedTimelineItemSummariesMerge timelineName oldSummaries
        newSummaries) := by
  constructor
  · intro timelineName oldSummaries newSummaries ho hb coh
    by_cases hs : timelineType timelineName = "status"
    · have hn : timelineType timelineName ≠ "notifications" := by
        rw [hs]
        decide
      simp only [addTimelineItemSummariesMerge, if_pos hs, if_neg hn,
        Option.getD_some]
      exact thread_nonpaged_idem _ hb coh
    · by_cases hnn : timelineType timelineName = "notifications"
      · simp only [addTimelineItemSummariesMerge, if_pos hnn, if_neg hs,
          Option.getD_some]
        exact generic_nonpaged_idem ho
          (List.sorted_insertionSort summaryGE newSummaries)
      · simp only [addTimelineItemSummariesMerge, if_neg hnn, if_neg hs,
          Option.getD_some]
        exact generic_nonpaged_idem ho hb
  · intro timelineName oldSummaries newSummaries
    by_cases hs : timelineType timelineName = "status"
    · have hn : timelineType timelineName ≠ "notifications" := by
        rw [hs]
        decide
      simp only [addPagedTimelineItemSummariesMerge, if_pos hs, if_neg hn,
        Option.getD_some]
      exact thread_paged_idem _ _ _
    · by_cases hnn : timelineType timelineName = "notifications"
      · simp only [addPagedTimelineItemSummariesMerge, if_pos hnn,
          if_neg hs, Option.getD_some]
        exact generic_paged_idem _ _
      · simp only [addPagedTimelineItemSummariesMerge, if_neg hnn,
          if_neg hs, Option.getD_some]
        exact generic_paged_idem _ _

theorem merge_fresh_wins_and_paged_concat_witness :
    findId (addTimelineItemSummariesMerge "home"
        (some [⟨"x", 3, "old"⟩, ⟨"a", 1, "old"⟩]) [⟨"x", 3, "new"⟩]) "x" =
      some ⟨"x", 3, "new"⟩ :=
  (merge_fresh_wins_and_paged_concat "home"
      (some [⟨"x", 3, "old"⟩, ⟨"a", 1, "old"⟩]) [⟨"x", 3, "new"⟩]
      (by decide) (by decide) (by decide) (by decide)
      (by decide)).1.2 "x" ⟨"x", 3, "new"⟩ (by decide)

theorem merge_same_batch_idempotent_witness :
    addTimelineItemSummariesMerge "home"
      (some (addTimelineItemSummariesMerge "home" (some [⟨"a", 2, "s"⟩])
        [⟨"b", 1, "s"⟩])) [⟨"b", 1, "s"⟩] =
    addTimelineItemSummariesMerge "home" (some [⟨"a", 2, "s"⟩])
      [⟨"b", 1, "s"⟩] :=
  merge_same_batch_idempotent.1 "home" (some [⟨"a", 2, "s"⟩])
    [⟨"b", 1, "s"⟩] (by decide) (by decide) (by decide)

/-! ### Protocol-B normalizer (`_api_atproto/timelines.js`)

The embedding keeps the fields the validity check, the repost branch
and the batch mapping read; presentation-only fields (embeds, facets,
labels) are elided. -/

/-- Author of an atproto post (`post.author`). -/
structure AtprotoAuthor where
  did : String
  handle : String
  deriving DecidableEq, Repr

/-- An atproto post view: the fields of `post` that the normalizer's
validity check and repost branch read. -/
structure AtprotoPost where
  uri : String
  cid : Option String
  author : Option AtprotoAuthor
  recordText : Option String
  recordCreatedAt : Option String
  deriving DecidableEq, Repr

/-- The `reason` of a feed item (`$type`, the reposting actor's DID, and
the repost timestamp). -/
structure AtprotoReason where
  rtype : String
  byDid : String
  indexedAt : String
  deriving DecidableEq, Repr

/-- A raw Protocol-B feed item: `{post, reason?}` (the `reply` part is
not read by the logic under verification). -/
structure FeedViewPost where
  post : Option AtprotoPost
  reason : Option AtprotoReason
  deriving DecidableEq, Repr

/-- The slice of the canonical Enafore status produced by the normalizer
that the claims read: id, uri, content, timestamps, acting account, and
the id of the nested reposted original (`reblog.id`). -/
structure EnaforeStatus where
  id : String
  uri : String
  content : String
  createdAt : Option String
  accountDid : String
  reblogOfId : Option String
  protocol : String
  deriving DecidableEq, Repr

/-- The non-repost path of `transformAtprotoPostToEnaforeStatus`: maps
the post view itself (`id: post.uri`, text content, author DID). -/
def transformPostCore (post : AtprotoPost) (author : AtprotoAuthor) :
    EnaforeStatus where
  id := post.uri
  uri := post.uri
  content := post.recordText.getD ""
  createdAt := post.recordCreatedAt
  accountDid := author.did
  reblogOfId := none
  protocol := "atproto"

/-- Embeds `transformAtprotoPostToEnaforeStatus` (latest revision,
`src/unnamed/part_004` lines 158-237): items missing `post` or
`post.author` yield `null`; a `reasonRepost` item becomes a wrapper
status with the synthetic id `"repost:" + reason.by.did + ":" + post.uri`,
the repost's `indexedAt` as timestamp, the reposter as account, and the
transformed original nested under `reblog`; otherwise the post itself is
transformed. -/
def transformAtprotoPostToEnaforeStatus (fvp : FeedViewPost) :
    Option EnaforeStatus :=
  match fvp.post with
  | none => none
  | some post =>
    match post.author with
    | none => none
    | some author =>
      match fvp.reason with
      | some reason =>
        if reason.rtype = "app.bsky.feed.defs#reasonRepost" then
          let originalPostTransformed := transformPostCore post author
          some
            { id := "repost:" ++ reason.byDid ++ ":" ++ post.uri
              uri := "repost:" ++ reason.byDid ++ ":" ++ post.uri
              content := ""
              createdAt := some reason.indexedAt
              accountDid := reason.byDid
              reblogOfId := some originalPostTransformed.id
              protocol := "atproto" }
        else some (transformPostCore post author)
      | none => some (transformPostCore post author)

/-- Embeds the batch mapping of `getTimeline`
(`response.data.feed.map(transformAtprotoPostToEnaforeStatus)`): the
fetched feed is mapped through the normalizer with no further
filtering. -/
def getTimelineItems (feed : List FeedViewPost) :
    List (Option EnaforeStatus) :=
  feed.map transformAtprotoPostToEnaforeStatus

/-- C4: normalizing a Protocol-B feed item whose reason is a repost of
post `P` by actor `Q` yields a status whose id is the synthetic string
`"repost:" + Q + ":" + P.uri`, distinct from `P`'s own id (an `at://`
URI) and from the id of any other actor's repost of `P`, so the repost
and the original can coexist in one timeline without id collision. -/
theorem repost_synthetic_id (fvp : FeedViewPost) (post : AtprotoPost)
    (author : AtprotoAuthor) (reason : AtprotoReason) (rest : String)
    (hp : fvp.post = some post) (ha : post.author = some author)
    (hr : fvp.reason = some reason)
    (ht : reason.rtype = "app.bsky.feed.defs#reasonRepost")
    (hu : post.uri = "at://" ++ rest) :
    ∃ st, transformAtprotoPostToEnaforeStatus fvp = some st ∧
      st.id = "repost:" ++ reason.byDid ++ ":" ++ post.uri ∧
      st.reblogOfId = some post.uri ∧
      st.id ≠ post.uri ∧
      ∀ otherDid : String, otherDid ≠ reason.byDid →
        "repost:" ++ otherDid ++ ":" ++ post.uri ≠ st.id := by
  refine ⟨{ id := "repost:" ++ reason.byDid ++ ":" ++ post.uri
            uri := "repost:" ++ reason.byDid ++ ":" ++ post.uri
            content := ""
            createdAt := some reason.indexedAt
            accountDid := reason.byDid
            reblogOfId := some post.uri
            protocol := "atproto" }, ?_, rfl, rfl, ?_, ?_⟩
  · rw [transformAtprotoPostToEnaforeStatus, hp]
    simp only [ha, hr, if_pos ht]
    rfl
  · intro hc
    rw [hu] at hc
    have hd := congrArg String.data hc
    simp only [String.data_append] at hd
    simp at hd
  · intro otherDid hne hc
    apply hne
    have hd := congrArg String.data hc
    simp only [String.data_append, List.append_assoc,
      List.append_cancel_left_eq, List.append_cancel_right_eq] at hd
    cases otherDid
    cases hb : reason.byDid
    rw [hb] at hd
    exact congrArg String.mk hd

theorem repost_synthetic_id_witness :
    ∃ st, transformAtprotoPostToEnaforeStatus
        ⟨some ⟨"at://did:plc:p/app.bsky.feed.post/1", some "c1",
          some ⟨"did:plc:p", "alice.test"⟩, some "hi", some "t0"⟩,
        some ⟨"app.bsky.feed.defs#reasonRepost", "did:plc:q", "t1"⟩⟩ =
        some st ∧
      st.id = "repost:" ++ "did:plc:q" ++ ":" ++
        "at://did:plc:p/app.bsky.feed.post/1" ∧
      st.reblogOfId = some "at://did:plc:p/app.bsky.feed.post/1" ∧
      st.id ≠ "at://did:plc:p/app.bsky.feed.post/1" ∧
      ∀ otherDid : String, otherDid ≠ "did:plc:q" →
        "repost:" ++ otherDid ++ ":" ++
          "at://did:plc:p/app.bsky.feed.post/1" ≠ st.id :=
  repost_synthetic_id
    ⟨some ⟨"at://did:plc:p/app.bsky.feed.post/1", some "c1",
      some ⟨"did:plc:p", "alice.test"⟩, some "hi", some "t0"⟩,
    some ⟨"app.bsky.feed.defs#reasonRepost", "did:plc:q", "t1"⟩⟩
    ⟨"at://did:plc:p/app.bsky.feed.post/1", some "c1",
      some ⟨"did:plc:p", "alice.test"⟩, some "hi", some "t0"⟩
    ⟨"did:plc:p", "alice.test"⟩
    ⟨"app.bsky.feed.defs#reasonRepost", "did:plc:q", "t1"⟩
    "did:plc:p/app.bsky.feed.post/1" rfl rfl rfl rfl rfl

/-- C5 counterexample: `getTimeline` does not filter nulls.  A batch with
one valid and one structurally invalid item maps to a two-element list
that still contains `null`, instead of the nulls being filtered out by
the caller as the claim states. -/
theorem getTimeline_does_not_filter_nulls :
    transformAtprotoPostToEnaforeStatus ⟨some ⟨"at://p", some "c",
        none, some "hi", some "t0"⟩, none⟩ = none ∧
    getTimelineItems
        [⟨some ⟨"at://p", some "c", some ⟨"did:plc:a", "a.test"⟩,
          some "hi", some "t0"⟩, none⟩,
        ⟨some ⟨"at://p2", some "c", none, some "hi", some "t0"⟩, none⟩] =
      [some ⟨"at://p", "at://p", "hi", some "t0", "did:plc:a", none,
        "atproto"⟩, none] := by
  constructor
  · rfl
  · rfl

/-- C5 (amended): the normalizer returns `null` (it is a total function,
it does not throw) for every structurally invalid feed item, and
`getTimeline` maps the whole batch through it one item at a time — every
valid item's canonical status is in the result and the batch length is
preserved, so one malformed item cannot abort the fetch — but the nulls
are left in the items array rather than filtered out. -/
theorem normalizer_null_and_caller_keeps_nulls
    (feed : List FeedViewPost) :
    (∀ fvp ∈ feed,
      (fvp.post = none ∨ ∃ p, fvp.post = some p ∧ p.author = none) →
      transformAtprotoPostToEnaforeStatus fvp = none) ∧
    (getTimelineItems feed).length = feed.length ∧
    (∀ fvp ∈ feed,
      transformAtprotoPostToEnaforeStatus fvp ∈ getTimelineItems feed) := by
  refine ⟨?_, List.length_map feed _, ?_⟩
  · rintro fvp _ (hn | ⟨p, hp, hauth⟩)
    · rw [transformAtprotoPostToEnaforeStatus, hn]
    · rw [transformAtprotoPostToEnaforeStatus, hp]
      simp only [hauth]
  · intro fvp hf
    exact List.mem_map_of_mem _ hf

theorem normalizer_null_and_caller_keeps_nulls_witness :
    transformAtprotoPostToEnaforeStatus
        ⟨some ⟨"at://p2", some "c", none, some "hi", some "t0"⟩, none⟩ =
      none :=
  (normalizer_null_and_caller_keeps_nulls
      [⟨some ⟨"at://p2", some "c", none, some "hi", some "t0"⟩, none⟩]).1
    _ (List.mem_singleton_self _) (Or.inr ⟨_, rfl, rfl⟩)

/-! ### Optimistic like/repost actions
(`_actions/favorite.js`, `_actions/reblog.js`) -/

/-- The `statusId` argument of `setFavorited`/`setReblogged`: a plain id
string under ActivityPub, or, under atproto, an object bundle
`{uri, cid, likeUri|repostUri}`. -/
inductive StatusIdArg where
  | str (s : String)
  | bundle (uri cid refUri : Option String)
  deriving DecidableEq, Repr

/-- A cached status entry in a store timeline, with the boolean flags and
counts the mutations touch. -/
structure CachedStatus where
  id : String
  favorited : Bool
  likeCount : Int
  reblogged : Bool
  repostCount : Int
  deriving DecidableEq, Repr

/-- Whether the store-update key designates a cached entry.  Matching is
strict equality on the entry id, mirroring the in-source store helper
`_updateAtprotoStatusInAllTimelines` (`item.id === postUri`); an object
bundle is never equal to an id string. -/
def matchesKey : StatusIdArg → String → Bool
  | .str s, i => s == i
  | .bundle _ _ _, _ => false

/-- Modelled from the spec: `store.setStatusFavorited` (not in the
snapshot).  Sets the favorited flag of the designated entry and adjusts
its count by one, conditioned on the previous flag and clamped at zero,
mirroring the in-source `setPostLikeUri` store mixin. -/
def setStatusFavorited (key : StatusIdArg) (fav : Bool)
    (sts : List CachedStatus) : List CachedStatus :=
  sts.map fun st =>
    if matchesKey key st.id then
      { st with
        favorited := fav
        likeCount :=
          if fav ∧ ¬ st.favorited then st.likeCount + 1
          else if ¬ fav ∧ st.favorited then max 0 (st.likeCount - 1)
          else st.likeCount }
    else st

/-- Modelled from the spec: `store.setStatusReblogged` (not in the
snapshot), the repost counterpart of `setStatusFavorited`. -/
def setStatusReblogged (key : StatusIdArg) (reb : Bool)
    (sts : List CachedStatus) : List CachedStatus :=
  sts.map fun st =>
    if matchesKey key st.id then
      { st with
        reblogged := reb
        repostCount :=
          if reb ∧ ¬ st.reblogged then st.repostCount + 1
          else if ¬ reb ∧ st.reblogged then max 0 (st.repostCount - 1)
          else st.repostCount }
    else st

/-- A cached post object, as a JavaScript object: a list of
string-valued properties. -/
def JsObj : Type := List (String × String)

/-- Property access `obj.key` on a cached post object. -/
def getProp (o : JsObj) (k : String) : Option String :=
  (o.find? (fun p => p.1 == k)).map (fun p => p.2)

/-- The property key under which every producer in the source records the
viewer's own repost record uri on a cached post: the normalizer
(`myRepostUri:` in part_004 line 257 and part_005 line 48) and the store
mixin `setPostRepostUri` (mixins.js lines 461 and 482). -/
def myRepostUriKey : String := "myRepostUri"

/-- The property key under which every producer in the source records the
viewer's own like record uri on a cached post (part_004 line 256,
part_005 line 47, mixins.js lines 412 and 435). -/
def myLikeUriKey : String := "myLikeUri"

/-- User-visible and network effects emitted by a mutation action, in
order. -/
inductive FlowEffect where
  | toastOffline
  | toastMissingInfo
  | toastCannotUndo
  | networkCall (refUri : Option String)
  | toastFailure
  deriving DecidableEq, Repr

/-- Result of running a mutation action: the cached statuses afterwards
and the effects performed. -/
structure FlowResult where
  statuses : List CachedStatus
  effects : List FlowEffect
  deriving DecidableEq, Repr

/-- Embeds `setFavorited` (`_actions/favorite.js`): offline guard, atproto
identifier validation with the `my_like_uri` cache-recovery fallback,
optimistic update keyed by `idForStoreModification`, then on network
failure the rollback `store.setStatusFavorited(currentInstance, statusId,
!favorited, ...)` — note the raw `statusId`, not
`idForStoreModification`.  `postInStore` stands for the
`store.getPostByUri(uri)` lookup (modelled from the spec as a best-effort
cached-copy lookup) and `networkOk` for the network call's outcome. -/
def setFavoritedFlow (online : Bool) (protocol : String)
    (statusId : StatusIdArg) (favorited : Bool)
    (postInStore : Option JsObj) (networkOk : Bool)
    (sts : List CachedStatus) : FlowResult :=
  if ¬ online then
    { statuses := sts, effects := [.toastOffline] }
  else
    let validated : Option (Option String × StatusIdArg) :=
      if protocol = "atproto" then
        match statusId with
        | .str _ => none
        | .bundle uri cid likeUri =>
          match uri, cid with
          | some _u, some _ =>
            if ¬ favorited ∧ likeUri = none then
              match postInStore with
              | some post =>
                match getProp post "my_like_uri" with
                | some rec_ => some (some rec_,
                    .bundle uri cid (some rec_))
                | none => none
              | none => none
            else some (likeUri, statusId)
          | _, _ => none
      else some (none, statusId)
    match validated with
    | none =>
      { statuses := sts
        effects :=
          [if protocol = "atproto" then
            (match statusId with
            | .bundle (some _) (some _) _ => .toastCannotUndo
            | _ => .toastMissingInfo)
          else .toastMissingInfo] }
    | some (refUri, statusIdAfter) =>
      let idFor : StatusIdArg :=
        if protocol = "atproto" then
          match statusIdAfter with
          | .bundle (some u) _ _ => .str u
          | other => other
        else statusIdAfter
      let optimistic := setStatusFavorited idFor favorited sts
      if networkOk then
        { statuses := optimistic, effects := [.networkCall refUri] }
      else
        { statuses := setStatusFavorited statusIdAfter (¬ favorited)
            optimistic
          effects := [.networkCall refUri, .toastFailure] }

/-- Embeds `setReblogged` (`_actions/reblog.js`): same shape as
`setFavoritedFlow` with the `my_repost_uri` recovery read and the
rollback `store.setStatusReblogged(currentInstance, statusId,
!reblogged, ...)` passing the raw `statusId`. -/
def setRebloggedFlow (online : Bool) (protocol : String)
    (statusId : StatusIdArg) (reblogged : Bool)
    (postInStore : Option JsObj) (networkOk : Bool)
    (sts : List CachedStatus) : FlowResult :=
  if ¬ online then
    { statuses := sts, effects := [.toastOffline] }
  else
    let validated : Option (Option String × StatusIdArg) :=
      if protocol = "atproto" then
        match statusId with
        | .str _ => none
        | .bundle uri cid repostUri =>
          match uri, cid with
          | some _u, some _ =>
            if ¬ reblogged ∧ repostUri = none then
              match postInStore with
              | some post =>
                match getProp post "my_repost_uri" with
                | some rec_ => some (some rec_,
                    .bundle uri cid (some rec_))
                | none => none
              | none => none
            else some (repostUri, statusId)
          | _, _ => none
      else some (none, statusId)
    match validated with
    | none =>
      { statuses := sts
        effects :=
          [if protocol = "atproto" then
            (match statusId with
            | .bundle (some _) (some _) _ => .toastCannotUndo
            | _ => .toastMissingInfo)
          else .toastMissingInfo] }
    | some (refUri, statusIdAfter) =>
      let idFor : StatusIdArg :=
        if protocol = "atproto" then
          match statusIdAfter with
          | .bundle (some u) _ _ => .str u
          | other => other
        else statusIdAfter
      let optimistic := setStatusReblogged idFor reblogged sts
      if networkOk then
        { statuses := optimistic, effects := [.networkCall refUri] }
      else
        { statuses := setStatusReblogged statusIdAfter (¬ reblogged)
            optimistic
          effects := [.networkCall refUri, .toastFailure] }

/-- C6: the rollback of a failed optimistic atproto like does not restore
the pre-mutation state.  The optimistic update is keyed by
`idForStoreModification` (the post uri), but the rollback passes the raw
`statusId` bundle, which matches no cached entry, so the flag and count
keep their optimistically-mutated values. -/
theorem optimistic_rollback_divergence :
    (setFavoritedFlow true "atproto"
        (.bundle (some "at://p") (some "c") none) true none false
        [⟨"at://p", false, 0, false, 0⟩]).statuses =
      [⟨"at://p", true, 1, false, 0⟩] ∧
    (setFavoritedFlow true "atproto"
        (.bundle (some "at://p") (some "c") none) true none false
        [⟨"at://p", false, 0, false, 0⟩]).statuses ≠
      [⟨"at://p", false, 0, false, 0⟩] ∧
    (setRebloggedFlow true "atproto"
        (.bundle (some "at://p") (some "c") none) true none false
        [⟨"at://p", false, 0, false, 0⟩]).statuses =
      [⟨"at://p", false, 0, true, 1⟩] ∧
    setStatusFavorited (.bundle (some "at://p") (some "c") none) false
      [⟨"at://p", true, 1, false, 0⟩] = [⟨"at://p", true, 1, false, 0⟩] := by
  refine ⟨rfl, ?_, rfl, rfl⟩
  decide

/-- C7: unreposting an atproto post whose bundle lacks the repost record
uri fails with a user-facing error even though the post is cached with
its own reference id.  The cached copy records the uri under
`myRepostUri` (the key every producer writes), but the recovery fallback
reads `my_repost_uri`, which is never set, so the recovery cannot
succeed; had the fallback read the producers' key, the action would
proceed to the network call with the recovered reference id. -/
theorem unrepost_recovery_never_succeeds :
    (setRebloggedFlow true "atproto"
        (.bundle (some "at://p") (some "c") none) false
        (some [(myRepostUriKey, "at://did:plc:me/repost/1")]) true
        [⟨"at://p", false, 0, true, 1⟩]) =
      { statuses := [⟨"at://p", false, 0, true, 1⟩]
        effects := [.toastCannotUndo] } ∧
    myRepostUriKey ≠ "my_repost_uri" ∧
    myLikeUriKey ≠ "my_like_uri" ∧
    (setRebloggedFlow true "atproto"
        (.bundle (some "at://p") (some "c") none) false
        (some [("my_repost_uri", "at://did:plc:me/repost/1")]) true
        [⟨"at://p", false, 0, true, 1⟩]).effects =
      [.networkCall (some "at://did:plc:me/repost/1")] := by
  refine ⟨?_, ?_, ?_, rfl⟩ <;> decide

/-- C10: when the store reports offline, `setFavorited` and
`setReblogged` return immediately after the offline toast: no network
call, no optimistic change, and the cached statuses are untouched. -/
theorem offline_mutation_is_noop (protocol : String)
    (statusId : StatusIdArg) (desired : Bool)
    (postInStore : Option JsObj) (networkOk : Bool)
    (sts : List CachedStatus) :
    setFavoritedFlow false protocol statusId desired postInStore networkOk
        sts = { statuses := sts, effects := [.toastOffline] } ∧
    setRebloggedFlow false protocol statusId desired postInStore networkOk
        sts = { statuses := sts, effects := [.toastOffline] } := by
  constructor <;> rfl

/-! ### Local deletion (`_actions/deleteStatuses.js`) -/

/-- An ActivityPub status record in the local database; `reblogOfId` is
the id of the status it reblogs, when it is a reblog wrapper. -/
structure StatusRec where
  id : String
  reblogOfId : Option String
  deriving DecidableEq, Repr

/-- A notification record in the local database, referencing at most one
status. -/
structure NotifRec where
  id : String
  statusId : Option String
  deriving DecidableEq, Repr

/-- The local database slices deletion touches: ActivityPub statuses and
notifications, the atproto post store keyed by uri, and the atproto
timelines store whose records map a key of the form
`feedUri + NUL + sortableKey + NUL + postUri` to the post uri. -/
structure LocalDatabase where
  statuses : List StatusRec
  notifications : List NotifRec
  atprotoPosts : List (String × String)
  atprotoTimelines : List (String × String)
  deriving DecidableEq, Repr

/-- The store's cached timeline lists, as iterated by
`filterItemIdsFromTimelines`: the `timelineItemSummaries` and
`timelineItemSummariesToAdd` groups, each mapping a timeline name to a
summary list. -/
structure StoreTimelines where
  timelineItemSummaries : List (String × List TimelineItemSummary)
  timelineItemSummariesToAdd : List (String × List TimelineItemSummary)
  deriving DecidableEq, Repr

/-- One group pass of `filterItemIdsFromTimelines`: for every timeline
accepted by the timeline filter, keep only the summaries whose id passes
the id filter (the deep-equality guard only skips no-op writes). -/
def filterGroup (tlFilter : String → Bool) (keep : String → Bool)
    (g : List (String × List TimelineItemSummary)) :
    List (String × List TimelineItemSummary) :=
  g.map fun p =>
    if tlFilter p.1 then (p.1, p.2.filter fun s => keep s.id) else p

/-- Embeds `filterItemIdsFromTimelines` (`deleteStatuses.js` lines 8-28),
applied to both store groups. -/
def filterItemIdsFromTimelines (tlFilter : String → Bool)
    (keep : String → Bool) (st : StoreTimelines) : StoreTimelines where
  timelineItemSummaries := filterGroup tlFilter keep st.timelineItemSummaries
  timelineItemSummariesToAdd :=
    filterGroup tlFilter keep st.timelineItemSummariesToAdd

/-- Embeds `deleteStatusIdsFromStore`: removes the given ids from every
non-notification timeline. -/
def deleteStatusIdsFromStore (idsToDelete : List String)
    (st : StoreTimelines) : StoreTimelines :=
  filterItemIdsFromTimelines (fun tn => tn ≠ "notifications")
    (fun i => i ∉ idsToDelete) st

/-- Embeds `deleteNotificationIdsFromStore`: removes the given ids from
the notifications timeline. -/
def deleteNotificationIdsFromStore (idsToDelete : List String)
    (st : StoreTimelines) : StoreTimelines :=
  filterItemIdsFromTimelines (fun tn => tn = "notifications")
    (fun i => i ∉ idsToDelete) st

/-- Modelled from the spec: `getIdsThatRebloggedThisStatus` from
`_actions/statuses.js` (file not in the snapshot): the ids of the cached
statuses that are reblogs of the given status. -/
def getIdsThatRebloggedThisStatus (db : LocalDatabase)
    (statusId : String) : List String :=
  (db.statuses.filter fun r => r.reblogOfId = some statusId).map (·.id)

/-- Modelled from the spec: `getNotificationIdsForStatuses` from
`_actions/statuses.js` (file not in the snapshot): the ids of the cached
notifications referencing one of the given statuses. -/
def getNotificationIdsForStatuses (db : LocalDatabase)
    (statusIds : List String) : List String :=
  (db.notifications.filter fun n =>
    match n.statusId with
    | some s => s ∈ statusIds
    | none => false).map (·.id)

/-- Modelled from the spec: `database.deleteStatusesAndNotifications`
(database layer not in the snapshot): removes the given status and
notification ids from the local store. -/
def dbDeleteStatusesAndNotifications (db : LocalDatabase)
    (statusIds notificationIds : List String) : LocalDatabase :=
  { db with
    statuses := db.statuses.filter fun r => r.id ∉ statusIds
    notifications := db.notifications.filter fun n =>
      n.id ∉ notificationIds }

/-- Whether an atproto timelines store record is a reference to the
given post, as tested by `deleteAtprotoPost`
(`_database/timelines/getStatusOrNotification.js` lines 276-279): the
record's value is the post uri, or its key ends with
`NUL + postUri` (the key layout is
`feedUri + NUL + sortableKey(createdAt, postUri)`). -/
def atprotoTimelineRefMatches (postUri : String) (e : String × String) :
    Bool :=
  e.2 == postUri || List.isSuffixOf ( '\u0000' :: postUri.data) e.1.data

/-- Embeds `deleteAtprotoPost`
(`_database/timelines/getStatusOrNotification.js` lines 248-317): an
empty uri is rejected (`none`, nothing deleted); otherwise the record
with the given uri is deleted from the atproto post store, and every
reference to the post is deleted from the atproto timelines store. -/
def deleteAtprotoPost (db : LocalDatabase) (postUri : String) :
    Option LocalDatabase :=
  if postUri = "" then none
  else some { db with
    atprotoPosts := db.atprotoPosts.filter fun e => e.1 ≠ postUri
    atprotoTimelines := db.atprotoTimelines.filter fun e =>
      !atprotoTimelineRefMatches postUri e }

/-- Embeds `doDeleteStatus` (`deleteStatuses.js` lines 54-71): under
atproto, only the post's own id is removed from the store timelines,
and `database.deleteAtprotoPost` then removes the post record and its
timeline references — or rejects an empty uri (the `Option` half is
`none`; the store filter, which runs first, has happened either way);
under ActivityPub, the status, the ids that reblogged it (empty ids
dropped, as by `.filter(Boolean)`) and the notifications referencing
them are removed from the store timelines and the database. -/
def doDeleteStatus (protocol : String) (statusId : String)
    (st : StoreTimelines) (db : LocalDatabase) :
    StoreTimelines × Option LocalDatabase :=
  if protocol = "atproto" then
    (deleteStatusIdsFromStore [statusId] st, deleteAtprotoPost db statusId)
  else
    let rebloggedIds := getIdsThatRebloggedThisStatus db statusId
    let statusIdsToDelete :=
      (statusId :: rebloggedIds).filter fun i => i ≠ ""
    let notificationIdsToDelete :=
      getNotificationIdsForStatuses db statusIdsToDelete
    (deleteNotificationIdsFromStore notificationIdsToDelete
      (deleteStatusIdsFromStore statusIdsToDelete st),
    some (dbDeleteStatusesAndNotifications db statusIdsToDelete
      notificationIdsToDelete))

theorem filterGroup_removes {tlFilter keep}
    {g : List (String × List TimelineItemSummary)}
    {p : String × List TimelineItemSummary}
    (hp : p ∈ filterGroup tlFilter keep g) (ht : tlFilter p.1) :
    ∀ s ∈ p.2, keep s.id := by
  rcases List.mem_map.mp hp with ⟨q, hq, hpq⟩
  by_cases htq : tlFilter q.1
  · rw [if_pos htq] at hpq
    subst hpq
    intro s hs
    exact (List.mem_filter.mp hs).2
  · rw [if_neg htq] at hpq
    subst hpq
    exact absurd ht htq

theorem filterGroup_frame {tlFilter keep}
    {g : List (String × List TimelineItemSummary)}
    {p : String × List TimelineItemSummary} (hp : p ∈ g) :
    ∃ p' ∈ filterGroup tlFilter keep g, p'.1 = p.1 ∧
      ∀ s ∈ p.2, keep s.id → s ∈ p'.2 := by
  by_cases htq : tlFilter p.1
  · refine ⟨(p.1, p.2.filter fun s => keep s.id), ?_, rfl, ?_⟩
    · refine List.mem_map.mpr ⟨p, hp, ?_⟩
      rw [if_pos htq]
    · intro s hs hk
      exact List.mem_filter.mpr ⟨hs, hk⟩
  · refine ⟨p, ?_, rfl, fun s hs _ => hs⟩
    refine List.mem_map.mpr ⟨p, hp, ?_⟩
    rw [if_neg htq]

theorem mem_filterGroup {tlFilter keep}
    {g : List (String × List TimelineItemSummary)}
    {p : String × List TimelineItemSummary}
    (hp : p ∈ filterGroup tlFilter keep g) :
    ∃ q ∈ g, p.1 = q.1 ∧
      ∀ s ∈ p.2, s ∈ q.2 ∧ (tlFilter p.1 → keep s.id) := by
  rcases List.mem_map.mp hp with ⟨q, hq, hpq⟩
  by_cases htq : tlFilter q.1
  · rw [if_pos htq] at hpq
    subst hpq
    exact ⟨q, hq, rfl, fun s hs =>
      ⟨(List.mem_filter.mp hs).1, fun _ => (List.mem_filter.mp hs).2⟩⟩
  · rw [if_neg htq] at hpq
    subst hpq
    exact ⟨q, hq, rfl, fun s hs => ⟨hs, fun ht => absurd ht htq⟩⟩

theorem mem_notification_ids {db : LocalDatabase} {n : NotifRec}
    {sid : String} {sids : List String} (hn : n ∈ db.notifications)
    (hs : n.statusId = some sid) (hmem : sid ∈ sids) :
    n.id ∈ getNotificationIdsForStatuses db sids := by
  refine List.mem_map.mpr ⟨n, List.mem_filter.mpr ⟨hn, ?_⟩, rfl⟩
  rw [hs]
  simpa using hmem

/-- C8: deleting an ActivityPub status removes the status, every other
account's reblog of it, and every notification referencing those
statuses, from the cached timeline lists and the local store; deleting
an atproto post removes only that single uri from the timelines, the
atproto post store and the atproto timeline references (an empty uri is
rejected and deletes nothing from the database), leaving every other
timeline entry, every other atproto post and reference, and the
ActivityPub status/notification stores untouched. -/
theorem delete_cascade_vs_single_record :
    (∀ (db : LocalDatabase) (st : StoreTimelines) (statusId : String),
      statusId ≠ "" → (∀ r ∈ db.statuses, r.id ≠ "") →
      (∀ p ∈ (doDeleteStatus "activitypub" statusId st
          db).1.timelineItemSummaries ++
          (doDeleteStatus "activitypub" statusId st
            db).1.timelineItemSummariesToAdd,
        (p.1 ≠ "notifications" → ∀ s ∈ p.2, s.id ≠ statusId ∧
          ∀ r ∈ db.statuses, r.reblogOfId = some statusId →
            s.id ≠ r.id) ∧
        (p.1 = "notifications" → ∀ s ∈ p.2, ∀ n ∈ db.notifications,
          (n.statusId = some statusId ∨ ∃ r ∈ db.statuses,
            r.reblogOfId = some statusId ∧ n.statusId = some r.id) →
          s.id ≠ n.id)) ∧
      (∀ db', (doDeleteStatus "activitypub" statusId st db).2 = some db' →
        (∀ r ∈ db'.statuses,
          r.id ≠ statusId ∧ r.reblogOfId ≠ some statusId) ∧
        (∀ n ∈ db'.notifications,
          n.statusId ≠ some statusId ∧ ∀ r ∈ db.statuses,
            r.reblogOfId = some statusId → n.statusId ≠ some r.id))) ∧
    (∀ (db : LocalDatabase) (st : StoreTimelines) (uri : String),
      (∀ p ∈ (doDeleteStatus "atproto" uri st
          db).1.timelineItemSummaries ++
          (doDeleteStatus "atproto" uri st
            db).1.timelineItemSummariesToAdd,
        p.1 ≠ "notifications" → ∀ s ∈ p.2, s.id ≠ uri) ∧
      (doDeleteStatus "atproto" "" st db).2 = none ∧
      (∀ db', (doDeleteStatus "atproto" uri st db).2 = some db' →
        (∀ e ∈ db'.atprotoPosts, e.1 ≠ uri) ∧
        (∀ e ∈ db.atprotoPosts, e.1 ≠ uri → e ∈ db'.atprotoPosts) ∧
        (∀ e ∈ db'.atprotoTimelines, e.2 ≠ uri ∧
          List.isSuffixOf ( '\u0000' :: uri.data) e.1.data = false) ∧
        (∀ e ∈ db.atprotoTimelines, e.2 ≠ uri →
          List.isSuffixOf ( '\u0000' :: uri.data) e.1.data = false →
          e ∈ db'.atprotoTimelines) ∧
        db'.statuses = db.statuses ∧
        db'.notifications = db.notifications) ∧
      (∀ p ∈ st.timelineItemSummaries ++ st.timelineItemSummariesToAdd,
        ∃ p' ∈ (doDeleteStatus "atproto" uri st
            db).1.timelineItemSummaries ++
            (doDeleteStatus "atproto" uri st
              db).1.timelineItemSummariesToAdd,
          p'.1 = p.1 ∧ ∀ s ∈ p.2, s.id ≠ uri → s ∈ p'.2)) := by
  have hne : ("activitypub" : String) ≠ "atproto" := by decide
  constructor
  · intro db st statusId hsid hids
    simp only [doDeleteStatus, if_neg hne, deleteNotificationIdsFromStore,
      deleteStatusIdsFromStore, filterItemIdsFromTimelines]
    set sids := (statusId :: getIdsThatRebloggedThisStatus db statusId).filter
      (fun i => i ≠ "") with hsids
    have hstatus_mem : statusId ∈ sids := by
      rw [hsids]
      exact List.mem_filter.mpr ⟨List.mem_cons_self _ _, by simpa using hsid⟩
    have hreblog_mem : ∀ r ∈ db.statuses,
        r.reblogOfId = some statusId → r.id ∈ sids := by
      intro r hr hrb
      rw [hsids]
      refine List.mem_filter.mpr ⟨?_, by simpa using hids r hr⟩
      refine List.mem_cons_of_mem _ ?_
      exact List.mem_map.mpr ⟨r, List.mem_filter.mpr ⟨hr, by simp [hrb]⟩, rfl⟩
    refine ⟨?_, ?_⟩
    · intro p hp
      rcases List.mem_append.mp hp with hp | hp <;>
      · rcases mem_filterGroup hp with ⟨q, hq, hpq, hps⟩
        rcases mem_filterGroup hq with ⟨q0, _, hq0, hqs⟩
        constructor
        · intro hnn s hs
          have hsq : s ∈ q.2 := (hps s hs).1
          have h2 := (hqs s hsq).2 (by
            rw [← hpq]
            exact decide_eq_true hnn)
          have h2n : s.id ∉ sids := of_decide_eq_true h2
          refine ⟨?_, ?_⟩
          · intro hc
            exact h2n (hc ▸ hstatus_mem)
          · intro r hr hrb hc
            exact h2n (hc ▸ hreblog_mem r hr hrb)
        · intro hnn s hs n hn hcase
          have h1 := (hps s hs).2 (decide_eq_true hnn)
          have h1n : s.id ∉ getNotificationIdsForStatuses db sids :=
            of_decide_eq_true h1
          intro hc
          have hnid : n.id ∈ getNotificationIdsForStatuses db sids := by
            rcases hcase with hcase | ⟨r, hr, hrb, hcase⟩
            · exact mem_notification_ids hn hcase hstatus_mem
            · exact mem_notification_ids hn hcase (hreblog_mem r hr hrb)
          exact h1n (hc ▸ hnid)
    · intro db' heq
      rw [Option.some_inj] at heq
      subst heq
      refine ⟨?_, ?_⟩
      · intro r hr
        have h := (List.mem_filter.mp hr).2
        have hnotin : r.id ∉ sids := by simpa using h
        refine ⟨fun hc => hnotin (hc ▸ hstatus_mem), fun hc => ?_⟩
        exact hnotin (hreblog_mem r (List.mem_filter.mp hr).1 hc)
      · intro n hn
        have h := (List.mem_filter.mp hn).2
        have hnotin : n.id ∉ getNotificationIdsForStatuses db sids := by
          simpa using h
        refine ⟨fun hc => ?_, fun r hr hrb hc => ?_⟩
        · exact hnotin
            (mem_notification_ids (List.mem_filter.mp hn).1 hc hstatus_mem)
        · exact hnotin (mem_notification_ids (List.mem_filter.mp hn).1 hc
            (hreblog_mem r hr hrb))
  · intro db st uri
    simp only [doDeleteStatus, if_true, reduceIte,
      deleteStatusIdsFromStore, filterItemIdsFromTimelines]
    refine ⟨?_, ?_, ?_, ?_⟩
    · intro p hp
      rcases List.mem_append.mp hp with hp | hp <;>
      · rcases mem_filterGroup hp with ⟨q, _, hpq, hps⟩
        intro hnn s hs
        have h := (hps s hs).2 (decide_eq_true hnn)
        have hn2 : s.id ∉ [uri] := of_decide_eq_true h
        simpa using hn2
    · simp [deleteAtprotoPost]
    · intro db' heq
      simp only [deleteAtprotoPost] at heq
      by_cases hu : uri = ""
      · rw [if_pos hu] at heq
        exact Option.noConfusion heq
      · rw [if_neg hu, Option.some_inj] at heq
        subst heq
        refine ⟨?_, ?_, ?_, ?_, rfl, rfl⟩
        · intro e he
          exact of_decide_eq_true (List.mem_filter.mp he).2
        · intro e he hne2
          exact List.mem_filter.mpr ⟨he, by simpa using hne2⟩
        · intro e he
          have h2 := (List.mem_filter.mp he).2
          have h3 : atprotoTimelineRefMatches uri e = false := by
            cases hx : atprotoTimelineRefMatches uri e
            · rfl
            · rw [hx] at h2
              exact absurd h2 (by decide)
          rw [atprotoTimelineRefMatches] at h3
          have h4 := Bool.or_eq_false_iff.mp h3
          exact ⟨ne_of_beq_false h4.1, h4.2⟩
        · intro e he hv hs
          refine List.mem_filter.mpr ⟨he, ?_⟩
          have h3 : atprotoTimelineRefMatches uri e = false := by
            rw [atprotoTimelineRefMatches, hs, beq_false_of_ne hv]
            rfl
          rw [h3]
          rfl
    · intro p hp
      rcases List.mem_append.mp hp with hp | hp
      · rcases @filterGroup_frame (fun tn => tn ≠ "notifications")
          (fun i => i ∉ [uri]) _ _ hp with ⟨p', hp', hpq, hmem⟩
        refine ⟨p', List.mem_append_left _ hp', hpq, ?_⟩
        intro s hs hsr
        exact hmem s hs (decide_eq_true (by simpa using hsr))
      · rcases @filterGroup_frame (fun tn => tn ≠ "notifications")
          (fun i => i ∉ [uri]) _ _ hp with ⟨p', hp', hpq, hmem⟩
        refine ⟨p', List.mem_append_right _ hp', hpq, ?_⟩
        intro s hs hsr
        exact hmem s hs (decide_eq_true (by simpa using hsr))

/-- Sample database for exercising the deletion paths: status `s1` has
been reblogged by `rb1` and `rb2`, notifications reference `s1`, `rb1`
and an unrelated status, and the atproto stores hold two posts with one
timeline reference each. -/
def sampleDeleteDb : LocalDatabase where
  statuses := [⟨"s1", none⟩, ⟨"rb1", some "s1"⟩, ⟨"rb2", some "s1"⟩,
    ⟨"other", none⟩]
  notifications := [⟨"n1", some "s1"⟩, ⟨"n2", some "rb1"⟩,
    ⟨"n3", some "other"⟩]
  atprotoPosts := [("at://p", "v1"), ("at://q", "v2")]
  atprotoTimelines := [("feed1\u0000t1\u0000at://p", "at://p"),
    ("feed1\u0000t2\u0000at://q", "at://q")]

/-- Sample store timelines for exercising the deletion paths. -/
def sampleDeleteStore : StoreTimelines where
  timelineItemSummaries :=
    [("home", [⟨"s1", 5, "status"⟩, ⟨"rb1", 4, "status"⟩,
      ⟨"other", 3, "status"⟩]),
    ("notifications", [⟨"n1", 2, "notification"⟩,
      ⟨"n3", 1, "notification"⟩])]
  timelineItemSummariesToAdd := [("home", [⟨"rb2", 6, "status"⟩])]

/-- The database `sampleDeleteDb` after the ActivityPub deletion of
`s1`: the status, its reblogs and their notifications are gone, the
atproto stores are untouched. -/
def sampleApDeletedDb : LocalDatabase where
  statuses := [⟨"other", none⟩]
  notifications := [⟨"n3", some "other"⟩]
  atprotoPosts := [("at://p", "v1"), ("at://q", "v2")]
  atprotoTimelines := [("feed1\u0000t1\u0000at://p", "at://p"),
    ("feed1\u0000t2\u0000at://q", "at://q")]

/-- The database `sampleDeleteDb` after the atproto deletion of
`at://p`: only that post's record and timeline reference are gone. -/
def sampleAtprotoDeletedDb : LocalDatabase where
  statuses := [⟨"s1", none⟩, ⟨"rb1", some "s1"⟩, ⟨"rb2", some "s1"⟩,
    ⟨"other", none⟩]
  notifications := [⟨"n1", some "s1"⟩, ⟨"n2", some "rb1"⟩,
    ⟨"n3", some "other"⟩]
  atprotoPosts := [("at://q", "v2")]
  atprotoTimelines := [("feed1\u0000t2\u0000at://q", "at://q")]

theorem delete_cascade_vs_single_record_witness :
    ((⟨"other", none⟩ : StatusRec).id ≠ "s1" ∧
      (⟨"other", none⟩ : StatusRec).reblogOfId ≠ some "s1") ∧
    (("at://q", "v2") : String × String).1 ≠ "at://p" :=
  ⟨((delete_cascade_vs_single_record.1 sampleDeleteDb sampleDeleteStore
      "s1" (by decide) (by decide)).2 sampleApDeletedDb (by decide)).1
    ⟨"other", none⟩ (by decide),
  ((delete_cascade_vs_single_record.2 sampleDeleteDb sampleDeleteStore
      "at://p").2.2.1 sampleAtprotoDeletedDb (by decide)).1
    ("at://q", "v2") (by decide)⟩

/-! ### Atproto feed cursors (`setAtprotoFeedCursor` /
`getAtprotoFeedCursor`, stored in the `atproto_feed_cursors-v1` object
store keyed by `feedUri`, one database per PDS hostname) -/

/-- The record kept in the cursor object store: `{feedUri, cursor}`,
where a `none` cursor is the persisted form of an undefined/null token
("end of feed"). -/
structure AtprotoCursorRecord where
  feedUri : String
  cursor : Option String
  deriving DecidableEq, Repr

/-- The persistent cursor store across all PDS databases: one record per
`(pdsHostname, feedUri)` key. -/
def CursorDb : Type := List ((String × String) × AtprotoCursorRecord)

/-- Embeds `setAtprotoFeedCursor` (`src/src/routes/_api/instance.js`
lines 101-117): `store.put(cloneForStorage({feedUri, cursor}))` inserts
or replaces the record under its `feedUri` key in the hostname's
database. -/
def setAtprotoFeedCursor (db : CursorDb) (pdsHostname feedUri : String)
    (cursor : Option String) : CursorDb :=
  ((pdsHostname, feedUri), ⟨feedUri, cursor⟩) ::
    db.filter fun e => !(e.1 == (pdsHostname, feedUri))

/-- Embeds `getAtprotoFeedCursor` (`src/src/routes/_api/instance.js`
lines 184-199): reads only the persistent record (`store.get(feedUri)`)
and returns `record.cursor` when a record exists, undefined (`none`)
otherwise — exactly what a cold restart observes, since no in-memory
state is consulted. -/
def getAtprotoFeedCursor (db : CursorDb) (pdsHostname feedUri : String) :
    Option String :=
  match db.find? (fun e => e.1 == (pdsHostname, feedUri)) with
  | some e => e.2.cursor
  | none => none

/-- C9: for every `(pdsHostname, feedUri)` scope, writing a cursor token
and reading it back through the persistent store returns the same token,
including an undefined token marking end-of-feed, and writes to one
scope do not disturb any other scope. -/
theorem find?_filter_ne (db : CursorDb) (k1 k2 : String × String)
    (hne : k2 ≠ k1) :
    (db.filter fun e => !(e.1 == k1)).find? (fun e => e.1 == k2) =
      db.find? (fun e => e.1 == k2) := by
  induction db with
  | nil => rfl
  | cons e db ih =>
    by_cases hk1 : e.1 = k1
    · have h1 : (e.1 == k1) = true := beq_iff_eq.mpr hk1
      have h2 : (e.1 == k2) = false :=
        beq_false_of_ne (fun hc => hne (hc.symm.trans hk1))
      simp only [List.filter_cons, h1, Bool.not_true, if_neg,
        Bool.false_eq_true, not_false_eq_true, List.find?_cons, h2]
      exact ih
    · have h1 : (e.1 == k1) = false := beq_false_of_ne hk1
      by_cases hk2 : e.1 = k2
      · have h2 : (e.1 == k2) = true := beq_iff_eq.mpr hk2
        simp only [List.filter_cons, h1, Bool.not_false, if_pos,
          List.find?_cons, h2]
      · have h2 : (e.1 == k2) = false := beq_false_of_ne hk2
        simp only [List.filter_cons, h1, Bool.not_false, if_pos,
          List.find?_cons, h2]
        exact ih

theorem cursor_round_trip (db : CursorDb)
    (pdsHostname feedUri : String) (cursor : Option String) :
    getAtprotoFeedCursor (setAtprotoFeedCursor db pdsHostname feedUri
        cursor) pdsHostname feedUri = cursor ∧
    ∀ pds2 feed2 : String, (pds2, feed2) ≠ (pdsHostname, feedUri) →
      getAtprotoFeedCursor (setAtprotoFeedCursor db pdsHostname feedUri
          cursor) pds2 feed2 = getAtprotoFeedCursor db pds2 feed2 := by
  constructor
  · simp [getAtprotoFeedCursor, setAtprotoFeedCursor, List.find?]
  · intro pds2 feed2 hne
    have hbeq : ((pdsHostname, feedUri) == (pds2, feed2)) = false :=
      beq_false_of_ne (fun hc => hne hc.symm)
    simp only [getAtprotoFeedCursor, setAtprotoFeedCursor,
      List.find?_cons, hbeq]
    rw [find?_filter_ne db _ _ hne]

theorem cursor_round_trip_witness :
    getAtprotoFeedCursor (setAtprotoFeedCursor [] "bsky.social"
        "home_following" none) "bsky.social" "home_following" = none :=
  (cursor_round_trip [] "bsky.social" "home_following" none).1

end Enafore
